import Mathlib

/-!
Verification development for the `check_na.py` Excel NA-processor.

The source program reads two spreadsheet tables (a reference table and a
derived table), filters both to one region code (`kab`), and produces a
"template" copy of the filtered derived table in which certain cells are
overwritten with the sentinel string "NA": for each reference column of the
family `n_rtup_ternak_usaha_<animal>`, every derived column whose name
contains `<animal>` and (case-insensitively on the column name) one of the
user keywords is first coerced to strings (`astype(str)`) and then the rows
whose `kec` value appears among the reference rows with family value
strictly between 0 and 3 are set to "NA".

Tables are modelled column-major, as pandas stores them: an ordered list of
(column name, list of cells).  Cells are exact integers, strings, or the
missing marker (pandas NaN).  Numeric data is modelled with `Int` (the
source's integer columns); `astype(str)` is `cellToStr`; comparisons with
NaN are false, as in pandas.  String functions (`str.lower`, regex
substitution) are modelled on ASCII, which covers all names the program
manipulates.
-/

/-- Cell values of a table: exact integers, strings, or a missing value
(pandas NaN).  `n > 0` style comparisons on NaN are false in pandas, which
`maskCell` mirrors. -/
inductive Cell where
  | intV : Int → Cell
  | strV : String → Cell
  | naV : Cell
deriving DecidableEq

/-- Model of pandas `astype(str)` on one cell: integers print as decimal
(`str(10) = "10"`), strings are unchanged, NaN prints as "nan". -/
def cellToStr : Cell → Cell
  | .intV n => .strV (toString n)
  | .strV s => .strV s
  | .naV => .strV "nan"

/-- The threshold rule of line 125: `(v > 0) & (v < 3)`.  Non-numeric and
missing cells compare false, as the pandas comparisons do. -/
def maskCell : Cell → Bool
  | .intV v => decide (0 < v) && decide (v < 3)
  | _ => false

/-- Boolean membership of a cell in a list of cells (pandas `isin`, which
compares values without numeric/string coercion). -/
def memB (v : Cell) (l : List Cell) : Bool :=
  l.any (fun w => decide (w = v))

/-- Does `h` start with `n` (character lists)? -/
def startsL : List Char → List Char → Bool
  | [], _ => true
  | _ :: _, [] => false
  | a :: as, b :: bs => decide (a = b) && startsL as bs

/-- Python's substring test `n in h` on character lists. -/
def subL (n : List Char) : List Char → Bool
  | [] => n.isEmpty
  | c :: t => startsL n (c :: t) || subL n t

/-- ASCII model of `str.lower` on one character. -/
def lcChar (c : Char) : Char :=
  if 65 ≤ c.toNat ∧ c.toNat ≤ 90 then Char.ofNat (c.toNat + 32) else c

/-- ASCII model of `str.upper` on one character. -/
def ucChar (c : Char) : Char :=
  if 97 ≤ c.toNat ∧ c.toNat ≤ 122 then Char.ofNat (c.toNat - 32) else c

/-- Lower-case a character list. -/
def lowerL (l : List Char) : List Char := l.map lcChar

/-- Upper-case a character list. -/
def upperL (l : List Char) : List Char := l.map ucChar

/-- Python `name.split('_')` (keeps empty segments). -/
def splitU : List Char → List (List Char)
  | [] => [[]]
  | c :: t =>
    match splitU t with
    | [] => [[c]]
    | h :: r => if decide (c = '_') then [] :: h :: r else (c :: h) :: r

/-- Python `'_'.join(segs)`. -/
def joinU (segs : List (List Char)) : List Char :=
  List.intercalate ['_'] segs

/-- Line 116: `'_'.join(col.split('_')[4:])` — the animal token of a family
column name. -/
def animalOf (col : String) : String :=
  ⟨joinU ((splitU col.data).drop 4)⟩

/-- The keyword part of line 119: `keyword in c.lower()`.  The column name
is lower-cased; the keyword is used verbatim. -/
def kwHit (k c : String) : Bool :=
  subL k.data (lowerL c.data)

/-- The full matching test of line 119: `animal in c and any(keyword in
c.lower() for keyword in column_keywords)`. -/
def matchesCol (c animal : String) (kws : List String) : Bool :=
  subL animal.data c.data && kws.any (fun k => kwHit k c)

/-- Modelled from the spec (for comparison with `matchesCol`): a fully
case-insensitive keyword test, in which the keyword is also lower-cased
before the substring comparison.  This is the reading of C6's words
"contains at least one of the user-supplied keyword substrings under
case-insensitive comparison". -/
def specMatchesCol (c animal : String) (kws : List String) : Bool :=
  subL animal.data c.data && kws.any (fun k => subL (lowerL k.data) (lowerL c.data))

/-- A table, column-major as pandas stores it: ordered columns, each a name
with its list of cells (rows aligned by index).  Real DataFrames have
unique column names and equal-length columns; theorems that need these
facts take them as hypotheses. -/
structure Table where
  cols : List (String × List Cell)
deriving DecidableEq

/-- Column names in order (`df.columns`). -/
def colNames (t : Table) : List String :=
  t.cols.map Prod.fst

/-- Column access `df[c]` (first column of that name; `[]` when absent —
the source only reads columns it knows exist). -/
def getCol (t : Table) (c : String) : List Cell :=
  ((t.cols.find? (fun p => decide (p.1 = c))).map Prod.snd).getD []

/-- Column assignment `df[c] = v`.  In the source the assigned column
always already exists (it is drawn from `df.columns`), so this replaces
and never appends. -/
def setCol (t : Table) (c : String) (v : List Cell) : Table :=
  ⟨t.cols.map (fun p => if p.1 = c then (p.1, v) else p)⟩

/-- Keep the rows at which the boolean mask is true (pandas boolean row
selection). -/
def selRows : List Bool → List Cell → List Cell
  | _, [] => []
  | [], _ :: _ => []
  | b :: bs, x :: xs => if b then x :: selRows bs xs else selRows bs xs

/-- Overwrite with the sentinel "NA" exactly the rows at which the selector
is true (`df.loc[sel, col] = 'NA'`); rows beyond the selector are kept. -/
def overwrite : List Bool → List Cell → List Cell
  | _, [] => []
  | [], x :: xs => x :: overwrite [] xs
  | b :: bs, x :: xs => (if b then Cell.strV "NA" else x) :: overwrite bs xs

/-- Line 90 / line 100: `df[df['kab'] == kab_code]`. -/
def rowFilter (t : Table) (kab : Int) : Table :=
  ⟨t.cols.map (fun p =>
    (p.1, selRows ((getCol t "kab").map (fun v => decide (v = Cell.intV kab))) p.2))⟩

/-- Line 125: the boolean mask `(df_ref_filtered[col] > 0) & (df_ref_filtered[col] < 3)`. -/
def rowMask (refT : Table) (famCol : String) : List Bool :=
  (getCol refT famCol).map maskCell

/-- Line 126: `df_ref_filtered.loc[mask, 'kec']`. -/
def matchedKec (refT : Table) (famCol : String) : List Cell :=
  selRows (rowMask refT famCol) (getCol refT "kec")

/-- The row selector of line 129 as a function of a given `kec` column:
membership of each `kec` value in the masked reference `kec` set. -/
def selFromKec (refT : Table) (famCol : String) (kec0 : List Cell) : List Bool :=
  kec0.map (fun v => memB v (matchedKec refT famCol))

/-- Line 129's row selector: `df_template['kec'].isin(matched_kec)` over the
current template table. -/
def kecSel (refT : Table) (famCol : String) (t : Table) : List Bool :=
  selFromKec refT famCol (getCol t "kec")

/-- Lines 122–129 for one matched column: coerce the column to strings,
then overwrite the kec-selected rows with "NA". -/
def stepCol (refT : Table) (famCol : String) (t : Table) (c : String) : Table :=
  let t1 := setCol t c ((getCol t c).map cellToStr)
  setCol t1 c (overwrite (kecSel refT famCol t1) (getCol t1 c))

/-- Line 119's list of matched derived columns for one family column. -/
def matchingCols (t : Table) (animal : String) (kws : List String) : List String :=
  (colNames t).filter (fun c => matchesCol c animal kws)

/-- Lines 119–129: process all derived columns matched by one family column. -/
def applyFamily (refT : Table) (kws : List String) (t : Table) (famCol : String) : Table :=
  (matchingCols t (animalOf famCol) kws).foldl (stepCol refT famCol) t

/-- Line 114–115: the reference columns of the family pattern. -/
def familiesOf (refT : Table) : List String :=
  (colNames refT).filter (fun c => startsL "n_rtup_ternak_usaha_".data c.data)

/-- Lines 111–129, the core masker: fold the per-family processing over all
family columns of the (already filtered) reference table, starting from a
copy of the (already filtered) derived table. -/
def masker (refT : Table) (kws : List String) (t : Table) : Table :=
  (familiesOf refT).foldl (applyFamily refT kws) t

/-- Is the cell a string cell?  After `astype(str)` every cell satisfies
this. -/
def isStrCellB : Cell → Bool
  | .strV _ => true
  | _ => false

/-- The cumulative effect on one derived column of the sequence of
(coerce; overwrite) steps it receives, one per selector in the list. -/
def applyOps (ops : List (List Bool)) (col : List Cell) : List Cell :=
  ops.foldl (fun col sel => overwrite sel (col.map cellToStr)) col

/-- The cumulative effect of the selector sequence on the single cell at
row `i`. -/
def cellAfter (ops : List (List Bool)) (x : Cell) (i : Nat) : Cell :=
  ops.foldl (fun v s => if s.getD i false then Cell.strV "NA" else cellToStr v) x

/-- Is row `i` selected by at least one selector of the list? -/
def anyAt (ops : List (List Bool)) (i : Nat) : Bool :=
  ops.any (fun s => s.getD i false)

/-- The selector sequence that the masker applies to the derived column
named `c`: one selector per family column (in reference-column order) whose
animal token and the keywords match `c`, all computed against a fixed `kec`
column. -/
def opsForF (refT : Table) (kws : List String) (F : List String) (c : String)
    (kec0 : List Cell) : List (List Bool) :=
  F.filterMap (fun f =>
    if matchesCol c (animalOf f) kws then some (selFromKec refT f kec0) else none)

/-- ASCII uppercase letter test (codepoints 65–90). -/
def isUpperC (c : Char) : Bool :=
  decide (65 ≤ c.toNat ∧ c.toNat ≤ 90)

/-- Python whitespace (`\s` and `str.strip`), ASCII. -/
def isSpaceC (c : Char) : Bool :=
  decide (c = ' ') || decide (c = '\t') || decide (c = '\n') ||
  decide (c = '\r') || decide (c = '\x0b') || decide (c = '\x0c')

/-- Scan for the first `]` on the current line: `some rest` is the suffix
after it; `none` when no `]` occurs before a newline or the end (regex `.`
does not match a newline). -/
def findClose : List Char → Option (List Char)
  | [] => none
  | c :: t =>
    if decide (c = ']') then some t
    else if decide (c = '\n') then none
    else findClose t

/-- Fuel-driven scanner for `re.sub(r'\[.*?\]\s*', '', s)`: each `[` that
has a matching `]` on its line is removed together with the bracketed text
and the following whitespace run; an unmatched `[` is kept.  The fuel is
instantiated to the string length, which the recursion never exhausts. -/
def stripBrAux : Nat → List Char → List Char
  | 0, l => l
  | _ + 1, [] => []
  | fuel + 1, c :: t =>
    if decide (c = '[') then
      match findClose t with
      | some t2 => stripBrAux fuel (t2.dropWhile isSpaceC)
      | none => c :: stripBrAux fuel t
    else c :: stripBrAux fuel t

/-- Line 37: `re.sub(r'\[.*?\]\s*', '', s)`. -/
def stripBr (l : List Char) : List Char :=
  stripBrAux l.length l

/-- Python `str.strip()`: drop whitespace from both ends. -/
def trimL (l : List Char) : List Char :=
  ((l.dropWhile isSpaceC).reverse.dropWhile isSpaceC).reverse

/-- A word character in the sense of regex `\w` (ASCII): letter, digit or
underscore. -/
def isAlnumC (c : Char) : Bool :=
  decide ('a' ≤ c ∧ c ≤ 'z') || decide ('A' ≤ c ∧ c ≤ 'Z') ||
  decide ('0' ≤ c ∧ c ≤ '9')

/-- Regex `\w` (ASCII): alphanumeric or underscore. -/
def isWordC (c : Char) : Bool :=
  isAlnumC c || decide (c = '_')

/-- Replace every maximal run of characters failing `keep` by a single
underscore; the flag records whether we are inside such a run. -/
def runSubAux (keep : Char → Bool) : Bool → List Char → List Char
  | _, [] => []
  | inRun, c :: t =>
    if keep c then c :: runSubAux keep false t
    else if inRun then runSubAux keep true t
    else '_' :: runSubAux keep true t

/-- Line 39: `re.sub(r'\W+', '_', s)` — each maximal run of non-word
characters becomes one underscore. -/
def wordSub (l : List Char) : List Char :=
  runSubAux isWordC false l

/-- Modelled from the spec (for comparison with `wordSub`): replace each
maximal run of non-ALPHANUMERIC characters — underscore included — by one
underscore, as C9's words "replaces all non-alphanumeric runs with a single
underscore" say. -/
def alnumSub (l : List Char) : List Char :=
  runSubAux isAlnumC false l

/-- Lines 37–39: the region-label cleaning applied to the raw `id_kab`
text — strip bracketed tokens, trim, replace non-word runs by `_`. -/
def cleanLabel (s : String) : String :=
  ⟨wordSub (trimL (stripBr s.data))⟩

/-- Modelled from the spec: the cleaning as C9 words it, with underscore
counted among the replaced (non-alphanumeric) characters. -/
def specNormalizeLabel (s : String) : String :=
  ⟨alnumSub (trimL (stripBr s.data))⟩

/-- Fuel-driven `str.replace(pat, rep)` (all non-overlapping occurrences,
left to right). -/
def replaceAux : Nat → List Char → List Char → List Char → List Char
  | 0, l, _, _ => l
  | fuel + 1, l, pat, rep =>
    match l with
    | [] => []
    | c :: t =>
      if startsL pat l then rep ++ replaceAux fuel (l.drop pat.length) pat rep
      else c :: replaceAux fuel t pat rep

/-- Python `s.replace(pat, rep)` for a non-empty pattern. -/
def replaceAllL (l pat rep : List Char) : List Char :=
  replaceAux l.length l pat rep

/-- Line 96: `output_file.replace('.xlsx', f'_{kab_name.upper()}.xlsx')`. -/
def outputName (base kabName : String) : String :=
  ⟨replaceAllL base.data ".xlsx".data ('_' :: (upperL kabName.data ++ ".xlsx".data))⟩

/-- Index of the first cell satisfying the test (`.iloc[0]` row lookup). -/
def firstIdxAux (p : Cell → Bool) : List Cell → Nat → Option Nat
  | [], _ => none
  | x :: t, i => if p x then some i else firstIdxAux p t (i + 1)

/-- Lines 32–39, `get_kabupaten_name`: take the first row whose `kab`
equals the code (`none` models the IndexError that `.iloc[0]` raises when
no row matches), read its `id_kab` (falling back to `str(kab_code)` when
the column is absent, as `Series.get` does), and clean the label.  A
non-string `id_kab` value would make `re.sub` raise, modelled as `none`. -/
def get_kabupaten_name (df : Table) (kab : Int) : Option String :=
  match firstIdxAux (fun v => decide (v = Cell.intV kab)) (getCol df "kab") 0 with
  | none => none
  | some i =>
    match (if (colNames df).any (fun n => decide (n = "id_kab"))
           then ((getCol df "id_kab").get? i).getD Cell.naV
           else Cell.strV (toString kab)) with
    | Cell.strV s => some (cleanLabel s)
    | _ => none

/-- Lines 86–132 without the I/O glue: filter both tables to the region,
resolve the region label (failing as the source does when no reference row
carries the code), and return the label with the three sheets
(`acuan`, `riil`, `template`). -/
def process (refT dT : Table) (kab : Int) (kws : List String) :
    Option (String × Table × Table × Table) :=
  let refF := rowFilter refT kab
  match get_kabupaten_name refT kab with
  | none => none
  | some nm =>
    let dF := rowFilter dT kab
    some (nm, refF, dF, masker refF kws dF)

/-- A reference table whose only `kab` value is 1: filtering for any other
code selects nothing, and `get_kabupaten_name` has no row to take. -/
def refEmptyKab : Table := ⟨[("kab", [Cell.intV 1])]⟩

/-- A minimal reference table for region code 1 with label "X". -/
def refKab1 : Table :=
  ⟨[("kab", [Cell.intV 1]), ("id_kab", [Cell.strV "X"]), ("kec", [Cell.strV "a"])]⟩

/-- A derived table whose rows all carry region code 2. -/
def dKab2 : Table := ⟨[("kab", [Cell.intV 2]), ("kec", [Cell.strV "z"])]⟩

/-- The spec's worked scenario, reference side: family column
`n_rtup_ternak_usaha_ayam_kampung` with values [0,1,2,5] over sub-regions
A–D. -/
def refScenario : Table :=
  ⟨[("kec", [Cell.strV "A", Cell.strV "B", Cell.strV "C", Cell.strV "D"]),
    ("n_rtup_ternak_usaha_ayam_kampung",
      [Cell.intV 0, Cell.intV 1, Cell.intV 2, Cell.intV 5])]⟩

/-- The spec's worked scenario, derived side: `populasi_ayam_kampung` with
values [10,20,30,40] over the same sub-regions. -/
def dScenario : Table :=
  ⟨[("kec", [Cell.strV "A", Cell.strV "B", Cell.strV "C", Cell.strV "D"]),
    ("populasi_ayam_kampung",
      [Cell.intV 10, Cell.intV 20, Cell.intV 30, Cell.intV 40])]⟩

/-- A reference table whose `kec` values are the strings "5" and "7" and
whose two family columns (`bb` first, `kec` second) mask exactly one row
each.  With integer `kec` values on the derived side, the first masker pass
coerces the derived `kec` column from integers to strings, which changes
what `isin` matches on the second pass. -/
def refTypeFlip : Table :=
  ⟨[("kec", [Cell.strV "5", Cell.strV "7"]),
    ("n_rtup_ternak_usaha_bb", [Cell.intV 1, Cell.intV 0]),
    ("n_rtup_ternak_usaha_kec", [Cell.intV 0, Cell.intV 1])]⟩

/-- A derived table with an integer `kec` column, paired with
`refTypeFlip`. -/
def dTypeFlip : Table := ⟨[("kec", [Cell.intV 5]), ("bbcol", [Cell.intV 9])]⟩

/-- A reference table whose single family value 0 masks no row at all. -/
def refZeroFam : Table :=
  ⟨[("kec", [Cell.strV "A"]), ("n_rtup_ternak_usaha_ayam", [Cell.intV 0])]⟩

/-- A derived table with one numeric matched column, paired with
`refZeroFam`. -/
def dZeroFam : Table := ⟨[("kec", [Cell.strV "A"]), ("populasi_ayam", [Cell.intV 10])]⟩

/-! Basic lemmas about the table primitives. -/

theorem overwrite_nil (s : List Bool) : overwrite s [] = [] := by
  cases s <;> rfl

theorem length_overwrite (s : List Bool) (c : List Cell) :
    (overwrite s c).length = c.length := by
  induction c generalizing s with
  | nil => simp [overwrite_nil]
  | cons x xs ih =>
    cases s with
    | nil => simpa [overwrite] using ih []
    | cons b bs => simpa [overwrite] using ih bs

theorem get?_overwrite (s : List Bool) (c : List Cell) (i : Nat) :
    (overwrite s c).get? i =
      (c.get? i).map (fun x => if s.getD i false then Cell.strV "NA" else x) := by
  induction c generalizing s i with
  | nil => simp [overwrite_nil]
  | cons x xs ih =>
    cases s with
    | nil =>
      cases i with
      | zero => simp [overwrite]
      | succ j => simpa [overwrite] using ih [] j
    | cons b bs =>
      cases i with
      | zero => simp [overwrite]
      | succ j => simpa [overwrite] using ih bs j

theorem selRows_eq_nil (m : List Bool) (c : List Cell) (h : ∀ b ∈ m, b = false) :
    selRows m c = [] := by
  induction m generalizing c with
  | nil => cases c <;> rfl
  | cons b bs ih =>
    cases c with
    | nil => rfl
    | cons x xs =>
      have hb : b = false := h b (List.mem_cons_self _ _)
      simp [selRows, hb, ih xs (fun b hb => h b (List.mem_cons_of_mem _ hb))]

theorem mem_overwrite (s : List Bool) (c : List Cell) (x : Cell)
    (h : x ∈ overwrite s c) : x = Cell.strV "NA" ∨ x ∈ c := by
  induction c generalizing s with
  | nil => simp [overwrite_nil] at h
  | cons y ys ih =>
    cases s with
    | nil =>
      rcases List.mem_cons.mp h with h1 | h1
      · exact Or.inr (by simp [h1])
      · rcases ih [] h1 with h2 | h2
        · exact Or.inl h2
        · exact Or.inr (List.mem_cons_of_mem _ h2)
    | cons b bs =>
      rcases List.mem_cons.mp h with h1 | h1
      · cases b with
        | true => exact Or.inl (by simpa using h1)
        | false => exact Or.inr (by simp [h1])
      · rcases ih bs h1 with h2 | h2
        · exact Or.inl h2
        · exact Or.inr (List.mem_cons_of_mem _ h2)

theorem getCol_not_mem (t : Table) (c : String) (h : c ∉ colNames t) :
    getCol t c = [] := by
  have hf : t.cols.find? (fun p => decide (p.1 = c)) = none := by
    apply List.find?_eq_none.mpr
    intro p hp
    simp only [decide_eq_true_eq]
    intro hc
    exact h (hc ▸ List.mem_map_of_mem Prod.fst hp)
  simp [getCol, hf]

theorem getCol_eq_nil_of_all (t : Table) (h : ∀ p ∈ t.cols, p.2 = ([] : List Cell))
    (c : String) : getCol t c = [] := by
  cases hf : t.cols.find? (fun p => decide (p.1 = c)) with
  | none => simp [getCol, hf]
  | some p =>
    have hm : p ∈ t.cols := List.mem_of_find?_eq_some hf
    simp [getCol, hf, h p hm]

theorem colNames_setCol (t : Table) (c : String) (v : List Cell) :
    colNames (setCol t c v) = colNames t := by
  simp only [colNames, setCol, List.map_map]
  apply List.map_congr_left
  intro p _
  by_cases hp : p.1 = c <;> simp [hp]

theorem getCol_setCol_of_ne (t : Table) (c d : String) (v : List Cell) (h : c ≠ d) :
    getCol (setCol t d v) c = getCol t c := by
  obtain ⟨l⟩ := t
  induction l with
  | nil => rfl
  | cons p ps ih =>
    by_cases hp : p.1 = d
    · have hpc : ¬ p.1 = c := by rw [hp]; exact fun e => h e.symm
      simp only [setCol, List.map_cons, if_pos hp]
      simp only [getCol, List.find?]
      simp only [hpc, decide_False]
      simpa [getCol, setCol, List.find?, hpc] using ih
    · simp only [setCol, List.map_cons, if_neg hp]
      by_cases hpc : p.1 = c
      · simp [getCol, List.find?, hpc]
      · simp only [getCol, List.find?, hpc, decide_False]
        simpa [getCol, setCol, List.find?, hpc] using ih

theorem getCol_setCol_same (t : Table) (c : String) (v : List Cell) :
    getCol (setCol t c v) c = if c ∈ colNames t then v else [] := by
  obtain ⟨l⟩ := t
  induction l with
  | nil => simp [getCol, setCol, colNames]
  | cons p ps ih =>
    by_cases hp : p.1 = c
    · simp [getCol, setCol, List.find?, hp, colNames]
    · have hcp : ¬ c = p.1 := fun e => hp e.symm
      have hmem : (c ∈ colNames ⟨p :: ps⟩) ↔ (c ∈ colNames ⟨ps⟩) := by
        simp [colNames, hcp]
      simp only [setCol, List.map_cons, if_neg hp]
      simp only [getCol, List.find?, hp, decide_False]
      by_cases hm : c ∈ colNames (⟨ps⟩ : Table)
      · rw [if_pos (hmem.mpr hm)]
        have h2 := ih
        rw [if_pos hm] at h2
        simpa [getCol, setCol] using h2
      · rw [if_neg (fun hh => hm (hmem.mp hh))]
        have h2 := ih
        rw [if_neg hm] at h2
        simpa [getCol, setCol] using h2

/-! Lemmas about one masking step and the folds over matched columns and
family columns. -/

theorem colNames_stepCol (refT : Table) (f : String) (t : Table) (d : String) :
    colNames (stepCol refT f t d) = colNames t := by
  simp [stepCol, colNames_setCol]

theorem getCol_stepCol_of_ne (refT : Table) (f : String) (t : Table) (c d : String)
    (h : c ≠ d) : getCol (stepCol refT f t d) c = getCol t c := by
  simp [stepCol, getCol_setCol_of_ne _ _ _ _ h]

theorem getCol_stepCol_same (refT : Table) (f : String) (t : Table) (c : String)
    (h : c ≠ "kec") :
    getCol (stepCol refT f t c) c =
      overwrite (selFromKec refT f (getCol t "kec")) ((getCol t c).map cellToStr) := by
  by_cases hm : c ∈ colNames t
  · simp only [stepCol, kecSel]
    rw [getCol_setCol_same, colNames_setCol, if_pos hm,
        getCol_setCol_same, if_pos hm, getCol_setCol_of_ne _ _ _ _ (fun e => h e.symm)]
  · have h0 : getCol t c = [] := getCol_not_mem t c hm
    simp only [stepCol, kecSel]
    rw [getCol_setCol_same, colNames_setCol, if_neg hm, h0]
    simp [overwrite_nil]

theorem length_getCol_stepCol (refT : Table) (f : String) (t : Table) (c d : String) :
    (getCol (stepCol refT f t d) c).length = (getCol t c).length := by
  by_cases hcd : c = d
  · subst hcd
    by_cases hm : c ∈ colNames t
    · simp only [stepCol, kecSel]
      rw [getCol_setCol_same, colNames_setCol, if_pos hm, getCol_setCol_same, if_pos hm]
      simp [length_overwrite]
    · have h0 : getCol t c = [] := getCol_not_mem t c hm
      simp only [stepCol, kecSel]
      rw [getCol_setCol_same, colNames_setCol, if_neg hm, h0]
  · rw [getCol_stepCol_of_ne _ _ _ _ _ hcd]

theorem getCol_foldl_stepCol_of_not_mem (refT : Table) (f : String) (c : String) :
    ∀ (L : List String) (t : Table), c ∉ L →
      getCol (L.foldl (stepCol refT f) t) c = getCol t c := by
  intro L
  induction L with
  | nil => intro t _; rfl
  | cons d L ih =>
    intro t hc
    have hcd : c ≠ d := fun e => hc (e ▸ List.mem_cons_self _ _)
    have hcl : c ∉ L := fun e => hc (List.mem_cons_of_mem _ e)
    rw [List.foldl_cons, ih _ hcl, getCol_stepCol_of_ne _ _ _ _ _ hcd]

theorem colNames_foldl_stepCol (refT : Table) (f : String) :
    ∀ (L : List String) (t : Table),
      colNames (L.foldl (stepCol refT f) t) = colNames t := by
  intro L
  induction L with
  | nil => intro t; rfl
  | cons d L ih => intro t; rw [List.foldl_cons, ih, colNames_stepCol]

theorem length_getCol_foldl_stepCol (refT : Table) (f : String) (c : String) :
    ∀ (L : List String) (t : Table),
      (getCol (L.foldl (stepCol refT f) t) c).length = (getCol t c).length := by
  intro L
  induction L with
  | nil => intro t; rfl
  | cons d L ih => intro t; rw [List.foldl_cons, ih, length_getCol_stepCol]

theorem getCol_foldl_stepCol (refT : Table) (f : String) (c : String) :
    ∀ (L : List String) (t : Table), L.Nodup → "kec" ∉ L →
      getCol (L.foldl (stepCol refT f) t) c =
        if c ∈ L then
          overwrite (selFromKec refT f (getCol t "kec")) ((getCol t c).map cellToStr)
        else getCol t c := by
  intro L
  induction L with
  | nil => intro t _ _; simp
  | cons d L ih =>
    intro t hnd hkec
    have hdk : d ≠ "kec" := fun e => hkec (e ▸ List.mem_cons_self _ _)
    have hkl : "kec" ∉ L := fun e => hkec (List.mem_cons_of_mem _ e)
    have hkecEq : getCol (stepCol refT f t d) "kec" = getCol t "kec" :=
      getCol_stepCol_of_ne _ _ _ _ _ (fun e => hdk e.symm)
    rw [List.foldl_cons, ih _ hnd.of_cons hkl, hkecEq]
    by_cases hcd : c = d
    · subst hcd
      have hcl : c ∉ L := (List.nodup_cons.mp hnd).1
      rw [if_neg hcl, if_pos (List.mem_cons_self _ _)]
      exact getCol_stepCol_same _ _ _ _ hdk
    · rw [getCol_stepCol_of_ne _ _ _ _ _ hcd]
      by_cases hcl : c ∈ L
      · rw [if_pos hcl, if_pos (List.mem_cons_of_mem _ hcl)]
      · rw [if_neg hcl, if_neg (by simp [List.mem_cons, hcd, hcl])]

theorem colNames_applyFamily (refT : Table) (kws : List String) (t : Table) (f : String) :
    colNames (applyFamily refT kws t f) = colNames t :=
  colNames_foldl_stepCol refT f _ t

theorem length_getCol_applyFamily (refT : Table) (kws : List String) (t : Table)
    (f c : String) :
    (getCol (applyFamily refT kws t f) c).length = (getCol t c).length :=
  length_getCol_foldl_stepCol refT f c _ t

theorem getCol_applyFamily_of_unmatched (refT : Table) (kws : List String) (t : Table)
    (f c : String) (h : matchesCol c (animalOf f) kws = false) :
    getCol (applyFamily refT kws t f) c = getCol t c := by
  apply getCol_foldl_stepCol_of_not_mem
  intro hc
  have := (List.mem_filter.mp hc).2
  rw [h] at this
  exact Bool.false_ne_true this

theorem getCol_applyFamily (refT : Table) (kws : List String) (t : Table) (f c : String)
    (hnd : (colNames t).Nodup) (hkec : matchesCol "kec" (animalOf f) kws = false) :
    getCol (applyFamily refT kws t f) c =
      if matchesCol c (animalOf f) kws = true then
        overwrite (selFromKec refT f (getCol t "kec")) ((getCol t c).map cellToStr)
      else getCol t c := by
  have hndL : (matchingCols t (animalOf f) kws).Nodup := hnd.filter _
  have hkecL : "kec" ∉ matchingCols t (animalOf f) kws := by
    intro hc
    have := (List.mem_filter.mp hc).2
    rw [hkec] at this
    exact Bool.false_ne_true this
  have hgf := getCol_foldl_stepCol refT f c (matchingCols t (animalOf f) kws) t hndL hkecL
  rw [applyFamily, hgf]
  by_cases hp : matchesCol c (animalOf f) kws = true
  · rw [if_pos hp]
    by_cases hm : c ∈ colNames t
    · have hcl : c ∈ matchingCols t (animalOf f) kws := by
        rw [matchingCols]
        exact List.mem_filter.mpr ⟨hm, by simpa using hp⟩
      rw [if_pos hcl]
    · have hcl : c ∉ matchingCols t (animalOf f) kws := by
        intro hc
        rw [matchingCols] at hc
        exact hm (List.mem_filter.mp hc).1
      rw [if_neg hcl, getCol_not_mem t c hm]
      simp [overwrite_nil]
  · have hcl : c ∉ matchingCols t (animalOf f) kws := by
      intro hc
      rw [matchingCols] at hc
      exact hp (by simpa using (List.mem_filter.mp hc).2)
    rw [if_neg hcl, if_neg hp]

theorem colNames_masker (refT : Table) (kws : List String) (t : Table) :
    colNames (masker refT kws t) = colNames t := by
  rw [masker]
  generalize familiesOf refT = F
  induction F generalizing t with
  | nil => rfl
  | cons f F ih => rw [List.foldl_cons, ih, colNames_applyFamily]

theorem length_getCol_masker (refT : Table) (kws : List String) (t : Table) (c : String) :
    (getCol (masker refT kws t) c).length = (getCol t c).length := by
  rw [masker]
  generalize familiesOf refT = F
  induction F generalizing t with
  | nil => rfl
  | cons f F ih => rw [List.foldl_cons, ih, length_getCol_applyFamily]

theorem getCol_masker_of_unmatched (refT : Table) (kws : List String) (t : Table)
    (c : String) (h : ∀ f ∈ familiesOf refT, matchesCol c (animalOf f) kws = false) :
    getCol (masker refT kws t) c = getCol t c := by
  rw [masker]
  revert h
  generalize familiesOf refT = F
  induction F generalizing t with
  | nil => intro _; rfl
  | cons f F ih =>
    intro h
    rw [List.foldl_cons,
        ih (applyFamily refT kws t f) (fun g hg => h g (List.mem_cons_of_mem _ hg)),
        getCol_applyFamily_of_unmatched _ _ _ _ _ (h f (List.mem_cons_self _ _))]

/-! The per-column view of the masker: each matched column receives a
sequence of (coerce to string; overwrite selected rows) operations. -/

theorem cellToStr_isStr (x : Cell) : isStrCellB (cellToStr x) = true := by
  cases x <;> rfl

theorem cellToStr_of_isStr (x : Cell) (h : isStrCellB x = true) : cellToStr x = x := by
  cases x with
  | strV s => rfl
  | intV n => simp [isStrCellB] at h
  | naV => simp [isStrCellB] at h

theorem applyOps_nil (col : List Cell) : applyOps [] col = col := rfl

theorem applyOps_cons (s : List Bool) (ops : List (List Bool)) (col : List Cell) :
    applyOps (s :: ops) col = applyOps ops (overwrite s (col.map cellToStr)) := rfl

theorem cellAfter_nil (x : Cell) (i : Nat) : cellAfter [] x i = x := rfl

theorem cellAfter_cons (s : List Bool) (ops : List (List Bool)) (x : Cell) (i : Nat) :
    cellAfter (s :: ops) x i =
      cellAfter ops (if s.getD i false then Cell.strV "NA" else cellToStr x) i := rfl

theorem get?_applyOps (ops : List (List Bool)) (col : List Cell) (i : Nat) :
    (applyOps ops col).get? i = (col.get? i).map (fun x => cellAfter ops x i) := by
  induction ops generalizing col with
  | nil =>
    rw [applyOps_nil]
    cases col.get? i <;> rfl
  | cons s ops ih =>
    rw [applyOps_cons, ih, get?_overwrite, List.get?_map, Option.map_map, Option.map_map]
    cases col.get? i with
    | none => rfl
    | some x => simp [cellAfter_cons, Function.comp]

theorem cellAfter_of_isStr (ops : List (List Bool)) (x : Cell) (i : Nat)
    (h : isStrCellB x = true) :
    cellAfter ops x i = if anyAt ops i then Cell.strV "NA" else x := by
  induction ops generalizing x with
  | nil => simp [cellAfter_nil, anyAt]
  | cons s ops ih =>
    rw [cellAfter_cons, cellToStr_of_isStr x h]
    have hany : anyAt (s :: ops) i = (s.getD i false || anyAt ops i) := by
      simp [anyAt]
    rw [hany]
    cases hs : s.getD i false with
    | true =>
      rw [if_pos rfl, ih (Cell.strV "NA") rfl]
      cases hr : anyAt ops i <;> simp
    | false =>
      rw [if_neg (fun hh => Bool.false_ne_true hh), ih x h]
      simp

theorem cellAfter_idem (ops : List (List Bool)) (x : Cell) (i : Nat) :
    cellAfter ops (cellAfter ops x i) i = cellAfter ops x i := by
  cases ops with
  | nil => rfl
  | cons s r =>
    have hv1 : isStrCellB (if s.getD i false then Cell.strV "NA" else cellToStr x) = true := by
      cases hs : s.getD i false
      · rw [if_neg (fun hh => Bool.false_ne_true hh)]
        exact cellToStr_isStr x
      · rw [if_pos rfl]
        rfl
    have hy : cellAfter (s :: r) x i =
        if anyAt r i then Cell.strV "NA"
        else (if s.getD i false then Cell.strV "NA" else cellToStr x) := by
      rw [cellAfter_cons, cellAfter_of_isStr r _ i hv1]
    have hystr : isStrCellB (cellAfter (s :: r) x i) = true := by
      rw [hy]
      cases hr : anyAt r i
      · rw [if_neg (fun hh => Bool.false_ne_true hh)]
        exact hv1
      · rw [if_pos rfl]
        rfl
    rw [cellAfter_cons (x := cellAfter (s :: r) x i),
        cellToStr_of_isStr _ hystr]
    have hw : isStrCellB (if s.getD i false then Cell.strV "NA"
        else cellAfter (s :: r) x i) = true := by
      cases hs : s.getD i false
      · rw [if_neg (fun hh => Bool.false_ne_true hh)]
        exact hystr
      · rw [if_pos rfl]
        rfl
    rw [cellAfter_of_isStr r _ i hw, hy]
    cases hr : anyAt r i <;> cases hs : s.getD i false <;> simp [hr, hs]

theorem applyOps_idem (ops : List (List Bool)) (col : List Cell) :
    applyOps ops (applyOps ops col) = applyOps ops col := by
  apply List.ext
  intro i
  simp only [get?_applyOps, Option.map_map]
  cases col.get? i with
  | none => rfl
  | some x => simp [Function.comp, cellAfter_idem]

/-! Factorisation of the masker through `applyOps`, and extensionality of
tables with unique column names. -/

theorem opsForF_cons (refT : Table) (kws : List String) (f : String) (F : List String)
    (c : String) (kec0 : List Cell) :
    opsForF refT kws (f :: F) c kec0 =
      if matchesCol c (animalOf f) kws = true then
        selFromKec refT f kec0 :: opsForF refT kws F c kec0
      else opsForF refT kws F c kec0 := by
  by_cases hp : matchesCol c (animalOf f) kws = true <;>
    simp [opsForF, List.filterMap_cons, hp]

theorem getCol_foldl_applyFamily (refT : Table) (kws : List String) (c : String) :
    ∀ (F : List String) (t : Table), (colNames t).Nodup →
      (∀ f ∈ F, matchesCol "kec" (animalOf f) kws = false) →
      getCol (F.foldl (applyFamily refT kws) t) c =
        applyOps (opsForF refT kws F c (getCol t "kec")) (getCol t c) := by
  intro F
  induction F with
  | nil => intro t _ _; rfl
  | cons f F ih =>
    intro t hnd hkec
    have hkf : matchesCol "kec" (animalOf f) kws = false :=
      hkec f (List.mem_cons_self _ _)
    have hkF : ∀ g ∈ F, matchesCol "kec" (animalOf g) kws = false :=
      fun g hg => hkec g (List.mem_cons_of_mem _ hg)
    have hnd2 : (colNames (applyFamily refT kws t f)).Nodup := by
      rw [colNames_applyFamily]; exact hnd
    have hkecEq : getCol (applyFamily refT kws t f) "kec" = getCol t "kec" := by
      rw [getCol_applyFamily refT kws t f "kec" hnd hkf, if_neg (by rw [hkf]; simp)]
    rw [List.foldl_cons, ih (applyFamily refT kws t f) hnd2 hkF, hkecEq,
        getCol_applyFamily refT kws t f c hnd hkf, opsForF_cons]
    by_cases hp : matchesCol c (animalOf f) kws = true
    · rw [if_pos hp, if_pos hp, applyOps_cons]
    · rw [if_neg hp, if_neg hp]

theorem getCol_masker_eq_applyOps (refT : Table) (kws : List String) (t : Table)
    (c : String) (hnd : (colNames t).Nodup)
    (hkec : ∀ f ∈ familiesOf refT, matchesCol "kec" (animalOf f) kws = false) :
    getCol (masker refT kws t) c =
      applyOps (opsForF refT kws (familiesOf refT) c (getCol t "kec")) (getCol t c) :=
  getCol_foldl_applyFamily refT kws c (familiesOf refT) t hnd hkec

theorem table_ext_cols :
    ∀ (l1 l2 : List (String × List Cell)),
      l1.map Prod.fst = l2.map Prod.fst → (l1.map Prod.fst).Nodup →
      (∀ c, getCol ⟨l1⟩ c = getCol ⟨l2⟩ c) → l1 = l2 := by
  intro l1
  induction l1 with
  | nil =>
    intro l2 hn _ _
    exact (List.map_eq_nil_iff.mp hn.symm).symm
  | cons p ps ih =>
    intro l2 hn hd hg
    cases l2 with
    | nil => exact absurd hn (by simp)
    | cons q qs =>
      simp only [List.map_cons, List.cons.injEq] at hn
      simp only [List.map_cons, List.nodup_cons] at hd
      have hpq : p.1 = q.1 := hn.1
      have hv : p.2 = q.2 := by
        have h1 : getCol ⟨p :: ps⟩ p.1 = p.2 := by
          simp only [getCol]
          rw [List.find?_cons_of_pos _ (by simp)]
          rfl
        have h2 : getCol ⟨q :: qs⟩ p.1 = q.2 := by
          simp only [getCol]
          rw [List.find?_cons_of_pos _ (by simp [hpq])]
          rfl
        rw [← h1, hg p.1, h2]
      have htl : ps = qs := by
        apply ih qs hn.2 hd.2
        intro c
        by_cases hc : c = p.1
        · have hnp : p.1 ∉ ps.map Prod.fst := hd.1
          have hnq : p.1 ∉ qs.map Prod.fst := by
            rw [← hn.2]
            exact hd.1
          rw [hc, getCol_not_mem ⟨ps⟩ p.1 hnp, getCol_not_mem ⟨qs⟩ p.1 hnq]
        · have h1 : getCol ⟨p :: ps⟩ c = getCol ⟨ps⟩ c := by
            simp only [getCol]
            rw [List.find?_cons_of_neg _ (by simp; exact fun e => hc e.symm)]
          have h2 : getCol ⟨q :: qs⟩ c = getCol ⟨qs⟩ c := by
            have hqc : ¬ q.1 = c := by
              rw [← hpq]
              exact fun e => hc e.symm
            simp only [getCol]
            rw [List.find?_cons_of_neg _ (by simpa using hqc)]
          rw [← h1, hg c, h2]
      calc p :: ps = (p.1, p.2) :: ps := by rw [Prod.mk.eta]
        _ = (q.1, q.2) :: qs := by rw [hpq, hv, htl]
        _ = q :: qs := by rw [Prod.mk.eta]

theorem table_ext (t1 t2 : Table) (hn : colNames t1 = colNames t2)
    (hd : (colNames t1).Nodup) (hg : ∀ c, getCol t1 c = getCol t2 c) : t1 = t2 := by
  obtain ⟨l1⟩ := t1
  obtain ⟨l2⟩ := t2
  have h := table_ext_cols l1 l2 hn hd hg
  rw [h]

/-! Every cell of a column that went through at least one (coerce;
overwrite) step is a string cell. -/

theorem mem_step_isStr (s : List Bool) (col : List Cell) :
    ∀ x ∈ overwrite s (col.map cellToStr), isStrCellB x = true := by
  intro x hx
  rcases mem_overwrite _ _ _ hx with h | h
  · rw [h]; rfl
  · rcases List.mem_map.mp h with ⟨y, _, hy⟩
    rw [← hy]; exact cellToStr_isStr y

theorem mem_applyOps_isStr_aux (ops : List (List Bool)) :
    ∀ (col : List Cell), (∀ x ∈ col, isStrCellB x = true) →
      ∀ x ∈ applyOps ops col, isStrCellB x = true := by
  induction ops with
  | nil => intro col h x hx; exact h x hx
  | cons s r ih =>
    intro col _ x hx
    rw [applyOps_cons] at hx
    exact ih _ (mem_step_isStr s col) x hx

theorem mem_applyOps_isStr (ops : List (List Bool)) (col : List Cell) (h : ops ≠ []) :
    ∀ x ∈ applyOps ops col, isStrCellB x = true := by
  cases ops with
  | nil => exact absurd rfl h
  | cons s r =>
    intro x hx
    rw [applyOps_cons] at hx
    exact mem_applyOps_isStr_aux r _ (mem_step_isStr s col) x hx

/-! Substring and case machinery for the column matcher and the region
label. -/

theorem startsL_iff (n : List Char) : ∀ h : List Char,
    startsL n h = true ↔ ∃ q, h = n ++ q := by
  induction n with
  | nil =>
    intro h
    simp [startsL]
  | cons a as ih =>
    intro h
    cases h with
    | nil =>
      simp only [startsL]
      constructor
      · intro hh; exact absurd hh (by simp)
      · rintro ⟨q, hq⟩; simp at hq
    | cons b bs =>
      simp only [startsL, Bool.and_eq_true, decide_eq_true_eq]
      constructor
      · rintro ⟨he, hs⟩
        rcases (ih bs).mp hs with ⟨q, hq⟩
        exact ⟨q, by rw [he, hq]; rfl⟩
      · rintro ⟨q, hq⟩
        simp only [List.cons_append, List.cons.injEq] at hq
        exact ⟨hq.1.symm, (ih bs).mpr ⟨q, hq.2⟩⟩

theorem subL_iff (n : List Char) : ∀ h : List Char,
    subL n h = true ↔ ∃ p q, h = p ++ n ++ q := by
  intro h
  induction h with
  | nil =>
    simp only [subL, List.isEmpty_iff]
    constructor
    · intro hn; exact ⟨[], [], by simp [hn]⟩
    · rintro ⟨p, q, hpq⟩
      rcases List.append_eq_nil.mp (List.append_eq_nil.mp hpq.symm).1 with ⟨_, h2⟩
      exact h2
  | cons c t ih =>
    simp only [subL, Bool.or_eq_true]
    constructor
    · rintro (hs | hs)
      · rcases (startsL_iff n _).mp hs with ⟨q, hq⟩
        exact ⟨[], q, by simpa using hq⟩
      · rcases ih.mp hs with ⟨p, q, hpq⟩
        exact ⟨c :: p, q, by simp [hpq]⟩
    · rintro ⟨p, q, hpq⟩
      cases p with
      | nil =>
        left
        exact (startsL_iff n _).mpr ⟨q, by simpa using hpq⟩
      | cons d ds =>
        right
        simp only [List.cons_append, List.cons.injEq] at hpq
        exact ih.mpr ⟨ds, q, hpq.2⟩

theorem toNat_char_ofNat (n : Nat) (h : n.isValidChar) : (Char.ofNat n).toNat = n := by
  rw [Char.ofNat, dif_pos h]
  rfl

theorem isUpperC_lcChar (c : Char) : isUpperC (lcChar c) = false := by
  rw [lcChar]
  by_cases h : 65 ≤ c.toNat ∧ c.toNat ≤ 90
  · rw [if_pos h]
    have hv : (c.toNat + 32).isValidChar := Or.inl (by omega)
    rw [isUpperC]
    simp only [decide_eq_false_iff_not]
    rw [toNat_char_ofNat _ hv]
    omega
  · rw [if_neg h, isUpperC]
    simp only [decide_eq_false_iff_not]
    exact h

theorem not_isUpperC_mem_lowerL (l : List Char) (ch : Char) (h : ch ∈ lowerL l) :
    isUpperC ch = false := by
  rcases List.mem_map.mp h with ⟨o, _, ho⟩
  rw [← ho]
  exact isUpperC_lcChar o

theorem findClose_subset (l : List Char) :
    ∀ t2, findClose l = some t2 → ∀ x ∈ t2, x ∈ l := by
  induction l with
  | nil => intro t2 h; simp [findClose] at h
  | cons c t ih =>
    intro t2 h x hx
    rw [findClose] at h
    by_cases hc : c = ']'
    · rw [if_pos (by simp [hc])] at h
      cases h
      exact List.mem_cons_of_mem _ hx
    · rw [if_neg (by simp [hc])] at h
      by_cases hn : c = '\n'
      · rw [if_pos (by simp [hn])] at h
        cases h
      · rw [if_neg (by simp [hn])] at h
        exact List.mem_cons_of_mem _ (ih t2 h x hx)

theorem mem_stripBrAux (fuel : Nat) :
    ∀ (l : List Char) (x : Char), x ∈ stripBrAux fuel l → x ∈ l := by
  induction fuel with
  | zero => intro l x hx; exact hx
  | succ fuel ih =>
    intro l x hx
    cases l with
    | nil => simp [stripBrAux] at hx
    | cons c t =>
      rw [stripBrAux] at hx
      by_cases hc : c = '['
      · rw [if_pos (by simp [hc])] at hx
        cases hfc : findClose t with
        | some t2 =>
          rw [hfc] at hx
          have h1 := ih _ x hx
          have h2 := List.dropWhile_subset isSpaceC h1
          exact List.mem_cons_of_mem _ (findClose_subset t t2 hfc x h2)
        | none =>
          rw [hfc] at hx
          rcases List.mem_cons.mp hx with h | h
          · exact h ▸ List.mem_cons_self _ _
          · exact List.mem_cons_of_mem _ (ih t x h)
      · rw [if_neg (by simp [hc])] at hx
        rcases List.mem_cons.mp hx with h | h
        · exact h ▸ List.mem_cons_self _ _
        · exact List.mem_cons_of_mem _ (ih t x h)

theorem mem_stripBr (l : List Char) (x : Char) (h : x ∈ stripBr l) : x ∈ l :=
  mem_stripBrAux l.length l x h

theorem mem_trimL (l : List Char) (x : Char) (h : x ∈ trimL l) : x ∈ l := by
  rw [trimL] at h
  rw [List.mem_reverse] at h
  have h1 := List.dropWhile_subset isSpaceC h
  rw [List.mem_reverse] at h1
  exact List.dropWhile_subset isSpaceC h1

theorem runSubAux_congr (keep1 keep2 : Char → Bool)
    (l : List Char) (hk : ∀ c ∈ l, keep1 c = keep2 c) :
    ∀ b, runSubAux keep1 b l = runSubAux keep2 b l := by
  induction l with
  | nil => intro b; rfl
  | cons c t ih =>
    intro b
    have hc : keep1 c = keep2 c := hk c (List.mem_cons_self _ _)
    have ht : ∀ d ∈ t, keep1 d = keep2 d := fun d hd => hk d (List.mem_cons_of_mem _ hd)
    rw [runSubAux, runSubAux, ← hc]
    cases hkc : keep1 c
    · cases b
      · simp only [Bool.false_eq_true, if_false, if_true]
        rw [ih ht true]
      · simp only [Bool.false_eq_true, if_false, if_true]
        rw [ih ht true]
    · simp only [if_true]
      rw [ih ht false]

theorem isWordC_eq_isAlnumC (c : Char) (h : c ≠ '_') : isWordC c = isAlnumC c := by
  rw [isWordC]
  simp [h]

/-! The claims. -/

/-- C1: the row mask is the strict open interval test 0 < v < 3 on the
reference family column: an integer reference value masks its row iff it
lies strictly between 0 and 3; in particular -1, 0, 3 and 4 do not mask,
1 and 2 do, and a missing value never masks (its row's cells stay
untouched).  The pipeline's row mask is the pointwise image of `maskCell`
over the reference column. -/
theorem C1_threshold_strict_open_interval :
    (∀ v : Int, maskCell (Cell.intV v) = true ↔ (0 < v ∧ v < 3)) ∧
    (∀ (refT : Table) (famCol : String) (i : Nat) (c : Cell),
      (getCol refT famCol).get? i = some c →
      (rowMask refT famCol).get? i = some (maskCell c)) ∧
    maskCell (Cell.intV (-1)) = false ∧ maskCell (Cell.intV 0) = false ∧
    maskCell (Cell.intV 1) = true ∧ maskCell (Cell.intV 2) = true ∧
    maskCell (Cell.intV 3) = false ∧ maskCell (Cell.intV 4) = false ∧
    maskCell Cell.naV = false := by
  refine ⟨?_, ?_, by decide, by decide, by decide, by decide, by decide, by decide, rfl⟩
  · intro v
    simp [maskCell]
  · intro refT famCol i c h
    rw [rowMask, List.get?_map, h]
    rfl

/-- Witness for C1 at a concrete table and row. -/
theorem C1_threshold_witness :
    (rowMask ⟨[("f", [Cell.intV 2])]⟩ "f").get? 0 = some (maskCell (Cell.intV 2)) :=
  C1_threshold_strict_open_interval.2.1 ⟨[("f", [Cell.intV 2])]⟩ "f" 0 (Cell.intV 2)
    (by decide)

/-- C7: with an empty keyword set no derived column ever matches, so the
masker is the identity and the template table is the unmodified derived
(riil) table; the run is a valid no-op with no failure. -/
theorem C7_empty_keywords_noop (refT t : Table) : masker refT [] t = t := by
  have hap : ∀ (t : Table) (f : String), applyFamily refT [] t f = t := by
    intro t f
    rw [applyFamily]
    have hmc : matchingCols t (animalOf f) [] = [] := by
      rw [matchingCols]
      apply List.filter_eq_nil.mpr
      intro a _
      simp [matchesCol]
    rw [hmc]
    rfl
  rw [masker]
  generalize familiesOf refT = F
  induction F with
  | nil => rfl
  | cons f F ih => rw [List.foldl_cons, hap, ih]

/-- C10: a keyword containing an ASCII uppercase letter can never hit any
column: line 119 lower-cases the column name but uses the keyword verbatim,
so the keyword test, and the matcher using that keyword alone, are false for
every column name — the filter behaves as specified only for lower-cased
keywords. -/
theorem C10_uppercase_keyword_never_matches (k c : String)
    (h : ∃ ch ∈ k.data, isUpperC ch = true) :
    kwHit k c = false ∧ ∀ animal : String, matchesCol c animal [k] = false := by
  have hk : kwHit k c = false := by
    rw [kwHit]
    cases hs : subL k.data (lowerL c.data)
    · rfl
    · exfalso
      rcases h with ⟨ch, hch, hup⟩
      rcases (subL_iff _ _).mp hs with ⟨p, q, hpq⟩
      have hmem : ch ∈ lowerL c.data := by
        rw [hpq]
        exact List.mem_append.mpr (Or.inl (List.mem_append.mpr (Or.inr hch)))
      have hlo := not_isUpperC_mem_lowerL c.data ch hmem
      rw [hup] at hlo
      exact absurd hlo (by decide)
  refine ⟨hk, ?_⟩
  intro animal
  rw [matchesCol]
  have hany : List.any [k] (fun kk => kwHit kk c) = false := by
    simp [hk]
  rw [hany, Bool.and_false]

/-- Witness for C10 with the keyword "POPULASI" against the column
"populasi_ayam". -/
theorem C10_uppercase_keyword_witness :
    kwHit "POPULASI" "populasi_ayam" = false ∧
    ∀ animal : String, matchesCol "populasi_ayam" animal ["POPULASI"] = false :=
  C10_uppercase_keyword_never_matches "POPULASI" "populasi_ayam"
    ⟨'P', by decide, by decide⟩

/-- C6 counterexample: with keyword "POPULASI" and column "populasi_ayam"
(animal token "ayam"), the claim's case-insensitive condition holds — the
spec-modelled matcher accepts — but the code's matcher rejects, because the
keyword is compared verbatim against the lower-cased name.  The claimed
"if and only if" is therefore false at this input. -/
theorem C6_case_insensitivity_cx :
    matchesCol "populasi_ayam" "ayam" ["POPULASI"] = false ∧
    specMatchesCol "populasi_ayam" "ayam" ["POPULASI"] = true := by decide

/-- C6 amended: a derived column matches iff its name contains the animal
token as a substring (case-sensitively) and its lower-cased name contains
at least one keyword verbatim — i.e. case-insensitive with respect to the
column name only; keywords are not themselves lower-cased. -/
theorem C6_matching_characterization (c animal : String) (kws : List String) :
    matchesCol c animal kws = true ↔
      ((∃ p q, c.data = p ++ animal.data ++ q) ∧
        ∃ k ∈ kws, ∃ p q, lowerL c.data = p ++ k.data ++ q) := by
  rw [matchesCol, Bool.and_eq_true, subL_iff]
  constructor
  · rintro ⟨h1, h2⟩
    refine ⟨h1, ?_⟩
    rcases List.any_eq_true.mp h2 with ⟨k, hk, hkk⟩
    rw [kwHit] at hkk
    exact ⟨k, hk, (subL_iff _ _).mp hkk⟩
  · rintro ⟨h1, k, hk, hsub⟩
    refine ⟨h1, List.any_eq_true.mpr ⟨k, hk, ?_⟩⟩
    rw [kwHit]
    exact (subL_iff _ _).mpr hsub

/-- Witness for C6 at the matched column of the worked scenario. -/
theorem C6_matching_witness :
    matchesCol "populasi_ayam_kampung" "ayam_kampung" ["populasi"] = true :=
  (C6_matching_characterization "populasi_ayam_kampung" "ayam_kampung" ["populasi"]).mpr
    ⟨⟨"populasi_".data, [], by decide⟩,
     "populasi", by decide, [], "_ayam_kampung".data, by decide⟩

/-- C9 counterexample: the code's normalization leaves an underscore run
alone ("a__b" stays "a__b"), while the claim's rule — every non-alphanumeric
run becomes a single underscore — would give "a_b".  The spec-modelled
normalizer shows the divergence. -/
theorem C9_underscore_run_cx :
    cleanLabel "[1] a__b" = "a__b" ∧ specNormalizeLabel "[1] a__b" = "a_b" ∧
    ("a__b" : String) ≠ "a_b" := by decide

/-- C9 amended: normalization strips bracketed tokens, trims whitespace and
replaces each maximal run of characters other than letters, digits and
underscore by a single underscore; existing underscores are kept verbatim
(on underscore-free inputs this coincides with the claimed rule).  The
worked example still holds: "[7205] Kota Bandung" normalizes to
"Kota_Bandung" and appears upper-cased in the output file name. -/
theorem C9_label_normalization :
    (∀ s : String, (∀ ch ∈ s.data, ch ≠ '_') → cleanLabel s = specNormalizeLabel s) ∧
    cleanLabel "[7205] Kota Bandung" = "Kota_Bandung" ∧
    outputName "PROCESSED_d.xlsx" "Kota_Bandung" = "PROCESSED_d_KOTA_BANDUNG.xlsx" := by
  refine ⟨?_, by decide, by decide⟩
  intro s h
  rw [cleanLabel, specNormalizeLabel]
  apply congrArg
  rw [wordSub, alnumSub]
  exact runSubAux_congr isWordC isAlnumC _
    (fun c hc => isWordC_eq_isAlnumC c (h c (mem_stripBr _ _ (mem_trimL _ _ hc)))) false

/-- Witness for C9 on an underscore-free input. -/
theorem C9_label_normalization_witness :
    cleanLabel "[7205] Kota Bandung" = specNormalizeLabel "[7205] Kota Bandung" :=
  C9_label_normalization.1 "[7205] Kota Bandung" (by decide)

/-- C4 counterexample: in the worked scenario the template column is not
`[10, "NA", "NA", 40]` with the unmasked entries kept numeric — the whole
column was coerced to text by `astype(str)` before masking. -/
theorem C4_scenario_cx :
    getCol (masker refScenario ["populasi"] dScenario) "populasi_ayam_kampung" ≠
      [Cell.intV 10, Cell.strV "NA", Cell.strV "NA", Cell.intV 40] := by decide

/-- C4 amended: the scenario's template column is ["10", "NA", "NA", "40"]:
rows B and C carry the sentinel and rows A and D carry the textual
representation of their original numbers. -/
theorem C4_scenario_textual :
    getCol (masker refScenario ["populasi"] dScenario) "populasi_ayam_kampung" =
      [Cell.strV "10", Cell.strV "NA", Cell.strV "NA", Cell.strV "40"] := by decide

/-- Stepping a column leaves it all-string, whatever the selector selects:
the step is `astype(str)` followed by writes of the string "NA". -/
theorem stepCol_self_isStr (refT : Table) (f : String) (t : Table) (c : String) :
    ∀ x ∈ getCol (stepCol refT f t c) c, isStrCellB x = true := by
  intro x hx
  simp only [stepCol] at hx
  rw [getCol_setCol_same, colNames_setCol] at hx
  by_cases hm : c ∈ colNames t
  · rw [if_pos hm] at hx
    rcases mem_overwrite _ _ _ hx with h | h
    · rw [h]
      rfl
    · rw [getCol_setCol_same, if_pos hm] at h
      rcases List.mem_map.mp h with ⟨y, _, hy⟩
      rw [← hy]
      exact cellToStr_isStr y
  · rw [if_neg hm] at hx
    simp at hx

theorem stepCol_isStr_preserve (refT : Table) (f : String) (t : Table) (c d : String)
    (h : ∀ x ∈ getCol t c, isStrCellB x = true) :
    ∀ x ∈ getCol (stepCol refT f t d) c, isStrCellB x = true := by
  by_cases hcd : c = d
  · subst hcd
    exact stepCol_self_isStr refT f t c
  · rw [getCol_stepCol_of_ne refT f t c d hcd]
    exact h

theorem foldl_stepCol_isStr_preserve (refT : Table) (f : String) (c : String) :
    ∀ (L : List String) (t : Table), (∀ x ∈ getCol t c, isStrCellB x = true) →
      ∀ x ∈ getCol (L.foldl (stepCol refT f) t) c, isStrCellB x = true := by
  intro L
  induction L with
  | nil => intro t h; exact h
  | cons d L ih =>
    intro t h
    rw [List.foldl_cons]
    exact ih _ (stepCol_isStr_preserve refT f t c d h)

theorem foldl_stepCol_isStr_of_mem (refT : Table) (f : String) (c : String) :
    ∀ (L : List String) (t : Table), c ∈ L →
      ∀ x ∈ getCol (L.foldl (stepCol refT f) t) c, isStrCellB x = true := by
  intro L
  induction L with
  | nil => intro t h; simp at h
  | cons d L ih =>
    intro t hc
    rw [List.foldl_cons]
    by_cases hcd : c = d
    · subst hcd
      exact foldl_stepCol_isStr_preserve refT f c L _ (stepCol_self_isStr refT f t c)
    · have hcl : c ∈ L := by
        rcases List.mem_cons.mp hc with h | h
        · exact absurd h hcd
        · exact h
      exact ih _ hcl

theorem applyFamily_isStr_of_matches (refT : Table) (kws : List String) (t : Table)
    (f c : String) (hm : matchesCol c (animalOf f) kws = true) :
    ∀ x ∈ getCol (applyFamily refT kws t f) c, isStrCellB x = true := by
  by_cases hmem : c ∈ colNames t
  · rw [applyFamily]
    apply foldl_stepCol_isStr_of_mem
    rw [matchingCols]
    exact List.mem_filter.mpr ⟨hmem, by simpa using hm⟩
  · intro x hx
    have hout : c ∉ colNames (applyFamily refT kws t f) := by
      rw [colNames_applyFamily]
      exact hmem
    rw [getCol_not_mem _ _ hout] at hx
    simp at hx

theorem applyFamily_isStr_preserve (refT : Table) (kws : List String) (t : Table)
    (f c : String) (h : ∀ x ∈ getCol t c, isStrCellB x = true) :
    ∀ x ∈ getCol (applyFamily refT kws t f) c, isStrCellB x = true := by
  rw [applyFamily]
  exact foldl_stepCol_isStr_preserve refT f c _ t h

theorem foldl_applyFamily_isStr_preserve (refT : Table) (kws : List String) (c : String) :
    ∀ (F : List String) (t : Table), (∀ x ∈ getCol t c, isStrCellB x = true) →
      ∀ x ∈ getCol (F.foldl (applyFamily refT kws) t) c, isStrCellB x = true := by
  intro F
  induction F with
  | nil => intro t h; exact h
  | cons f F ih =>
    intro t h
    rw [List.foldl_cons]
    exact ih _ (applyFamily_isStr_preserve refT kws t f c h)

/-- A column matched by at least one family is entirely string cells after
the masker, with no side conditions: the matching family's step coerces it,
and every later step either leaves the column alone or rewrites it with
strings again — whatever rows the (possibly shifting) selectors pick. -/
theorem masker_isStr_of_matched (refT : Table) (kws : List String) (t : Table)
    (c : String) (h : ∃ f ∈ familiesOf refT, matchesCol c (animalOf f) kws = true) :
    ∀ x ∈ getCol (masker refT kws t) c, isStrCellB x = true := by
  rw [masker]
  revert h
  generalize familiesOf refT = F
  induction F generalizing t with
  | nil =>
    rintro ⟨f, hf, _⟩
    simp at hf
  | cons f F ih =>
    rintro ⟨g, hg, hmg⟩
    rw [List.foldl_cons]
    rcases List.mem_cons.mp hg with hgf | hgF
    · subst hgf
      exact foldl_applyFamily_isStr_preserve refT kws c F _
        (applyFamily_isStr_of_matches refT kws t g c hmg)
    · exact ih _ ⟨g, hgF, hmg⟩

/-- C2 counterexample: the family value 0 masks no row (`matched_kec` is
empty), yet the matched column `populasi_ayam` is still coerced from the
integer 10 to the string "10" — coercion is not lazy, it happens for every
matched column before the mask is even consulted. -/
theorem C2_eager_coercion_cx :
    matchedKec refZeroFam "n_rtup_ternak_usaha_ayam" = [] ∧
    getCol (masker refZeroFam ["populasi"] dZeroFam) "populasi_ayam" =
      [Cell.strV "10"] ∧
    Cell.strV "10" ≠ Cell.intV 10 := by decide

/-- C2 amended: coercion to text is eager per matched column — it happens
when the column is processed, whether or not its mask selects any rows
(counterexample above); what remains true is the frame: a column matched by
no family is left exactly in its original representation, and a column
matched by at least one family consists entirely of string cells
afterwards, unconditionally. -/
theorem C2_coercion_frame :
    (∀ (refT : Table) (kws : List String) (t : Table) (c : String),
      (∀ f ∈ familiesOf refT, matchesCol c (animalOf f) kws = false) →
      getCol (masker refT kws t) c = getCol t c) ∧
    (∀ (refT : Table) (kws : List String) (t : Table) (c : String),
      (∃ f ∈ familiesOf refT, matchesCol c (animalOf f) kws = true) →
      ∀ x ∈ getCol (masker refT kws t) c, isStrCellB x = true) := by
  constructor
  · intro refT kws t c h
    exact getCol_masker_of_unmatched refT kws t c h
  · intro refT kws t c h
    exact masker_isStr_of_matched refT kws t c h

/-- Witness for C2, both conjuncts: an unmatched column keeps its original
(integer) representation through the masker, and a matched column is
all-string afterwards even in a run where `kec` is itself a matched
column. -/
theorem C2_coercion_frame_witness :
    (getCol (masker refZeroFam ["populasi"]
        ⟨[("kec", [Cell.strV "A"]), ("other", [Cell.intV 7])]⟩) "other" =
      getCol ⟨[("kec", [Cell.strV "A"]), ("other", [Cell.intV 7])]⟩ "other") ∧
    (∀ x ∈ getCol (masker refTypeFlip ["bb", "kec"] dTypeFlip) "bbcol",
      isStrCellB x = true) :=
  ⟨C2_coercion_frame.1 refZeroFam ["populasi"]
      ⟨[("kec", [Cell.strV "A"]), ("other", [Cell.intV 7])]⟩ "other" (by decide),
   C2_coercion_frame.2 refTypeFlip ["bb", "kec"] dTypeFlip "bbcol"
      ⟨"n_rtup_ternak_usaha_bb", by decide, by decide⟩⟩

/-- C3 counterexample: when no reference row carries the target region code,
the run fails — `get_kabupaten_name` has no row for `.iloc[0]` (modelled as
`none`) and the pipeline produces nothing, not an empty sheet. -/
theorem C3_empty_reference_filter_cx :
    process refEmptyKab refEmptyKab 2 ["rerata"] = none ∧
    get_kabupaten_name refEmptyKab 2 = none := by decide

/-- C3 amended: an empty row-filter result is non-fatal only on the derived
side: when the reference table still resolves a region label but no derived
row matches the code, the run succeeds and the riil and template sheets are
empty; an empty reference filter, by contrast, fails in
`get_kabupaten_name` (counterexample above). -/
theorem C3_empty_derived_nonfatal (refT dT : Table) (kab : Int) (kws : List String)
    (nm : String) (h1 : get_kabupaten_name refT kab = some nm)
    (h2 : ∀ v ∈ getCol dT "kab", v ≠ Cell.intV kab) :
    process refT dT kab kws =
      some (nm, rowFilter refT kab, rowFilter dT kab,
        masker (rowFilter refT kab) kws (rowFilter dT kab)) ∧
    (∀ c, getCol (rowFilter dT kab) c = []) ∧
    (∀ c, getCol (masker (rowFilter refT kab) kws (rowFilter dT kab)) c = []) := by
  have hriil : ∀ c, getCol (rowFilter dT kab) c = [] := by
    intro c
    apply getCol_eq_nil_of_all
    intro p hp
    rw [rowFilter] at hp
    rcases List.mem_map.mp hp with ⟨q, _, hq2⟩
    rw [← hq2]
    apply selRows_eq_nil
    intro b hb
    rcases List.mem_map.mp hb with ⟨v, hv, hv2⟩
    rw [← hv2]
    exact decide_eq_false (h2 v hv)
  have htm : ∀ c, getCol (masker (rowFilter refT kab) kws (rowFilter dT kab)) c = [] := by
    intro c
    have hlen := length_getCol_masker (rowFilter refT kab) kws (rowFilter dT kab) c
    rw [hriil c] at hlen
    exact List.length_eq_zero.mp (by simpa using hlen)
  refine ⟨?_, hriil, htm⟩
  simp [process, h1]

/-- Witness for C3: region 1 resolves on the reference side while no
derived row matches, and the run succeeds. -/
theorem C3_empty_derived_nonfatal_witness :
    process refKab1 dKab2 1 ["populasi"] =
      some ("X", rowFilter refKab1 1, rowFilter dKab2 1,
        masker (rowFilter refKab1 1) ["populasi"] (rowFilter dKab2 1)) ∧
    (∀ c, getCol (rowFilter dKab2 1) c = []) ∧
    (∀ c, getCol (masker (rowFilter refKab1 1) ["populasi"] (rowFilter dKab2 1)) c = []) :=
  C3_empty_derived_nonfatal refKab1 dKab2 1 ["populasi"] "X" (by decide) (by decide)

/-- C8: masking operates on a pure copy and only writes the sentinel at
selected rows: the pipeline returns the untouched filtered derived table as
the riil sheet next to the masked template; the masker creates no columns
and no rows (names and per-column lengths preserved); and the overwrite
step writes "NA" exactly at the selector-true rows, every other cell
keeping its (possibly coerced) value. -/
theorem C8_masking_frame :
    (∀ (refT dT : Table) (kab : Int) (kws : List String)
        (out : String × Table × Table × Table),
      process refT dT kab kws = some out →
      out.2.2.1 = rowFilter dT kab ∧ out.2.1 = rowFilter refT kab ∧
      out.2.2.2 = masker (rowFilter refT kab) kws (rowFilter dT kab)) ∧
    (∀ (refT : Table) (kws : List String) (t : Table),
      colNames (masker refT kws t) = colNames t) ∧
    (∀ (refT : Table) (kws : List String) (t : Table) (c : String),
      (getCol (masker refT kws t) c).length = (getCol t c).length) ∧
    (∀ (sel : List Bool) (col : List Cell) (i : Nat),
      (overwrite sel col).get? i =
        (col.get? i).map (fun x => if sel.getD i false then Cell.strV "NA" else x)) := by
  refine ⟨?_, colNames_masker, length_getCol_masker, get?_overwrite⟩
  intro refT dT kab kws out h
  cases hg : get_kabupaten_name refT kab with
  | none => simp [process, hg] at h
  | some nm =>
    simp only [process, hg] at h
    rw [← Option.some.inj h]
    exact ⟨rfl, rfl, rfl⟩

/-- Witness for C8 on the concrete region-1 pipeline run. -/
theorem C8_masking_frame_witness :
    (("X", rowFilter refKab1 1, rowFilter dKab2 1,
        masker (rowFilter refKab1 1) ["rerata"] (rowFilter dKab2 1)) :
      String × Table × Table × Table).2.2.1 = rowFilter dKab2 1 ∧
    (("X", rowFilter refKab1 1, rowFilter dKab2 1,
        masker (rowFilter refKab1 1) ["rerata"] (rowFilter dKab2 1)) :
      String × Table × Table × Table).2.1 = rowFilter refKab1 1 ∧
    (("X", rowFilter refKab1 1, rowFilter dKab2 1,
        masker (rowFilter refKab1 1) ["rerata"] (rowFilter dKab2 1)) :
      String × Table × Table × Table).2.2.2 =
      masker (rowFilter refKab1 1) ["rerata"] (rowFilter dKab2 1) :=
  C8_masking_frame.1 refKab1 dKab2 1 ["rerata"] _ (by decide)

/-- C5 counterexample: the masker is not idempotent in general.  With
`refTypeFlip` and `dTypeFlip`, the first pass coerces the derived `kec`
column (itself a matched column) from the integer 5 to the string "5",
which matches nothing as an integer but matches the reference `kec` "5" as
a string, so the second pass masks a cell the first pass left alone. -/
theorem C5_not_idempotent_cx :
    masker refTypeFlip ["bb", "kec"] (masker refTypeFlip ["bb", "kec"] dTypeFlip) ≠
      masker refTypeFlip ["bb", "kec"] dTypeFlip := by decide

/-- C5 amended: the masker is idempotent whenever the sub-region column
`kec` is not itself a matched column (no family's animal token together
with a keyword matches the name "kec") — then the `kec` column, hence every
row selector, is identical in both passes, the coercion is a no-op on
already-string cells and rewriting "NA" over "NA" changes nothing.  Column
names are assumed unique, as in a DataFrame. -/
theorem C5_masker_idempotent (refT : Table) (kws : List String) (t : Table)
    (hnd : (colNames t).Nodup)
    (hkec : ∀ f ∈ familiesOf refT, matchesCol "kec" (animalOf f) kws = false) :
    masker refT kws (masker refT kws t) = masker refT kws t := by
  have hn1 : colNames (masker refT kws t) = colNames t := colNames_masker _ _ _
  have hnd1 : (colNames (masker refT kws t)).Nodup := by rw [hn1]; exact hnd
  have hkecCol : getCol (masker refT kws t) "kec" = getCol t "kec" :=
    getCol_masker_of_unmatched refT kws t "kec" hkec
  apply table_ext
  · rw [colNames_masker, hn1]
  · rw [colNames_masker, hn1]
    exact hnd
  · intro c
    rw [getCol_masker_eq_applyOps refT kws (masker refT kws t) c hnd1 hkec, hkecCol,
        getCol_masker_eq_applyOps refT kws t c hnd hkec, applyOps_idem]

/-- Witness for C5 on the worked scenario, where `kec` is not matched. -/
theorem C5_masker_idempotent_witness :
    masker refScenario ["populasi"] (masker refScenario ["populasi"] dScenario) =
      masker refScenario ["populasi"] dScenario :=
  C5_masker_idempotent refScenario ["populasi"] dScenario (by decide) (by decide)
